import Mathlib

/-! # Verification of the caches crate

Shallow embedding of `src/fifo.rs`, `src/lru_1.rs` and `src/lru_2q.rs`.

The backing container `linked_hash_map_rs::LinkedHashMap` is an external
dependency whose source is not part of this repository; it is modelled from
the spec (the OrderedMap contract): an association list ordered from front
(oldest) to back (newest).

Machine integers (the u64 hit and miss counters, the usize lengths,
capacities and popped counts) are modelled as `Nat`; their overflow
behaviour is unspecified upstream and no modelled scenario reaches it.
Panics are modelled as `Except.error`; this covers both explicit `panic!`
calls and `debug_assert!` checks, matching the debug profile under which the
crate's own test suite runs. -/

variable {K V : Type}

/-- Modelled from the spec: the OrderedMap of `linked_hash_map_rs`, a
hash-indexed order-preserving key-value container, represented by its
linear order alone: a list of entries from front (oldest) to back
(newest). -/
abbrev LinkedHashMap (K V : Type) : Type := List (K × V)

/-- Modelled from the spec: OrderedMap `len()`. -/
def LinkedHashMap.len (m : LinkedHashMap K V) : Nat := List.length m

/-- Modelled from the spec: OrderedMap `get(key)`: optional value, no
reordering side effect. -/
def LinkedHashMap.get [DecidableEq K] (m : LinkedHashMap K V) (k : K) : Option V :=
  match m with
  | [] => none
  | e :: rest => if e.1 = k then some e.2 else LinkedHashMap.get rest k

/-- Modelled from the spec: OrderedMap `get_mut(key)`: optional mutable
value reference, no reordering; mutation through the returned reference is
outside this state model, so the state effect equals `get`. -/
def LinkedHashMap.get_mut [DecidableEq K] (m : LinkedHashMap K V) (k : K) : Option V :=
  m.get k

/-- Modelled from the spec: OrderedMap `contains(key)`. -/
def LinkedHashMap.contains [DecidableEq K] (m : LinkedHashMap K V) (k : K) : Bool :=
  (m.get k).isSome

/-- Helper: detach the entry holding `k` from the order, leaving every other
entry in place.  `remove`, `push_back` and `move_to_back` are each a lookup
plus this detachment. -/
def LinkedHashMap.erase [DecidableEq K] (m : LinkedHashMap K V) (k : K) : LinkedHashMap K V :=
  match m with
  | [] => []
  | e :: rest => if e.1 = k then rest else e :: LinkedHashMap.erase rest k

/-- Modelled from the spec: OrderedMap `remove(key)`: detaches regardless of
position and returns the owned pair. -/
def LinkedHashMap.remove [DecidableEq K] (m : LinkedHashMap K V) (k : K) :
    Option (K × V) × LinkedHashMap K V :=
  ((m.get k).map (fun v => (k, v)), m.erase k)

/-- Modelled from the spec: OrderedMap `push_back(key, value)`: if the key
already exists, its current entry is detached from its old position and a
fresh entry is placed at the back with the new value; if absent, a new entry
is appended at the back. -/
def LinkedHashMap.push_back [DecidableEq K] (m : LinkedHashMap K V) (k : K) (v : V) :
    LinkedHashMap K V :=
  m.erase k ++ [(k, v)]

/-- Modelled from the spec: OrderedMap `push_back_and_return(key, value)`:
same insert-or-relocate effect as `push_back`, returning the just-placed
entry. -/
def LinkedHashMap.push_back_and_return [DecidableEq K] (m : LinkedHashMap K V) (k : K) (v : V) :
    (K × V) × LinkedHashMap K V :=
  ((k, v), m.push_back k v)

/-- Modelled from the spec: OrderedMap `move_to_back(key)`: relinks the
entry to the back if present (value unchanged); absent key gives none, no
insertion. -/
def LinkedHashMap.move_to_back [DecidableEq K] (m : LinkedHashMap K V) (k : K) :
    Option (K × V) × LinkedHashMap K V :=
  match m.get k with
  | none => (none, m)
  | some v => (some (k, v), m.erase k ++ [(k, v)])

/-- Modelled from the spec: OrderedMap `pop_front()`: removes and returns the
frontmost entry; none if empty. -/
def LinkedHashMap.pop_front (m : LinkedHashMap K V) : Option (K × V) × LinkedHashMap K V :=
  match m with
  | [] => (none, [])
  | e :: rest => (some e, rest)

/-- Modelled from the spec: OrderedMap `front()`. -/
def LinkedHashMap.front (m : LinkedHashMap K V) : Option (K × V) := m.head?

/-- Modelled from the spec: OrderedMap `back()`. -/
def LinkedHashMap.back (m : LinkedHashMap K V) : Option (K × V) := m.getLast?

theorem LinkedHashMap.contains_cons [DecidableEq K] (e : K × V) (rest : LinkedHashMap K V)
    (k : K) :
    LinkedHashMap.contains (e :: rest) k = (if e.1 = k then true else rest.contains k) := by
  by_cases he : e.1 = k <;> simp [LinkedHashMap.contains, LinkedHashMap.get, he]

theorem LinkedHashMap.erase_of_not_contains [DecidableEq K] (m : LinkedHashMap K V) (k : K)
    (h : m.contains k = false) : m.erase k = m := by
  induction m with
  | nil => rfl
  | cons e rest ih =>
    rw [LinkedHashMap.contains_cons] at h
    by_cases he : e.1 = k
    · simp [he] at h
    · simp only [if_neg he] at h
      simp [LinkedHashMap.erase, if_neg he, ih h]

theorem LinkedHashMap.len_erase_le [DecidableEq K] (m : LinkedHashMap K V) (k : K) :
    (m.erase k).len ≤ m.len := by
  induction m with
  | nil => simp [LinkedHashMap.erase, LinkedHashMap.len]
  | cons e rest ih =>
    by_cases he : e.1 = k
    · simp [LinkedHashMap.erase, he, LinkedHashMap.len]
    · simp only [LinkedHashMap.erase, if_neg he, LinkedHashMap.len, List.length_cons]
      simp only [LinkedHashMap.len] at ih
      omega

theorem LinkedHashMap.len_erase_of_contains [DecidableEq K] (m : LinkedHashMap K V) (k : K)
    (h : m.contains k = true) : (m.erase k).len + 1 = m.len := by
  induction m with
  | nil => simp [LinkedHashMap.contains, LinkedHashMap.get] at h
  | cons e rest ih =>
    rw [LinkedHashMap.contains_cons] at h
    by_cases he : e.1 = k
    · simp [LinkedHashMap.erase, he, LinkedHashMap.len]
    · simp only [if_neg he] at h
      have h2 := ih h
      simp only [LinkedHashMap.erase, if_neg he, LinkedHashMap.len, List.length_cons]
      simp only [LinkedHashMap.len] at h2
      omega

theorem LinkedHashMap.len_push_back_le [DecidableEq K] (m : LinkedHashMap K V) (k : K) (v : V) :
    (m.push_back k v).len ≤ m.len + 1 := by
  have := m.len_erase_le k
  simp only [LinkedHashMap.push_back, LinkedHashMap.len, List.length_append,
    List.length_cons, List.length_nil] at *
  omega

theorem LinkedHashMap.len_push_back_of_contains [DecidableEq K] (m : LinkedHashMap K V)
    (k : K) (v : V) (h : m.contains k = true) : (m.push_back k v).len = m.len := by
  have := m.len_erase_of_contains k h
  simp only [LinkedHashMap.push_back, LinkedHashMap.len, List.length_append,
    List.length_cons, List.length_nil] at *
  omega

theorem LinkedHashMap.len_move_to_back [DecidableEq K] (m : LinkedHashMap K V) (k : K) :
    (m.move_to_back k).2.len = m.len := by
  unfold LinkedHashMap.move_to_back
  cases hg : m.get k with
  | none => rfl
  | some v =>
    have hc : m.contains k = true := by simp [LinkedHashMap.contains, hg]
    have := m.len_erase_of_contains k hc
    simp only [LinkedHashMap.len, List.length_append, List.length_cons, List.length_nil] at *
    omega

theorem LinkedHashMap.remove_of_not_contains [DecidableEq K] (m : LinkedHashMap K V) (k : K)
    (h : m.contains k = false) : m.remove k = (none, m) := by
  have hg : m.get k = none := by
    simpa [LinkedHashMap.contains, Option.isSome_iff_exists] using h
  simp [LinkedHashMap.remove, hg, m.erase_of_not_contains k h]

/-! ## FIFOCache (src/fifo.rs) -/

/-- `FIFOCache` from src/fifo.rs: capacity, backing map, hit and miss
counters (u64 counters modelled as `Nat`). -/
structure FIFOCache (K V : Type) where
  capacity : Nat
  map : LinkedHashMap K V
  hits : Nat
  misses : Nat
deriving DecidableEq

/-- `FIFOCache::new(capacity)`: empty map, zero counters
(`..Default::default()`). -/
def FIFOCache.new (capacity : Nat) : FIFOCache K V :=
  { capacity := capacity, map := [], hits := 0, misses := 0 }

/-- `FIFOCache::len()`. -/
def FIFOCache.len (c : FIFOCache K V) : Nat := c.map.len

/-- `FIFOCache::take(key)`. -/
def FIFOCache.take [DecidableEq K] (c : FIFOCache K V) (k : K) :
    Option (K × V) × FIFOCache K V :=
  ((c.map.remove k).1, { c with map := (c.map.remove k).2 })

/-- `FIFOCache::get(key)`: hit increments `hits`, miss increments `misses`;
no reordering. -/
def FIFOCache.get [DecidableEq K] (c : FIFOCache K V) (k : K) :
    Option V × FIFOCache K V :=
  match c.map.get k with
  | some v => (some v, { c with hits := c.hits + 1 })
  | none => (none, { c with misses := c.misses + 1 })

/-- `FIFOCache::get_mut(key)`: same counter updates and (absence of)
reordering as `get`; mutation of the value through the returned reference is
outside this state model. -/
def FIFOCache.get_mut [DecidableEq K] (c : FIFOCache K V) (k : K) :
    Option V × FIFOCache K V :=
  match c.map.get_mut k with
  | some v => (some v, { c with hits := c.hits + 1 })
  | none => (none, { c with misses := c.misses + 1 })

/-- `FIFOCache::renew(key)`: move the element to the back of the queue and
return it. -/
def FIFOCache.renew [DecidableEq K] (c : FIFOCache K V) (k : K) :
    Option (K × V) × FIFOCache K V :=
  ((c.map.move_to_back k).1, { c with map := (c.map.move_to_back k).2 })

/-- `FIFOCache::check_size()`: asserts `len <= capacity`, then, when
`len >= capacity`, pops the front entry, with `panic!("out of capacity")`
when the pop yields nothing. -/
def FIFOCache.check_size [DecidableEq K] (c : FIFOCache K V) :
    Except String (Option (K × V) × FIFOCache K V) :=
  if c.len ≤ c.capacity then
    if c.capacity ≤ c.len then
      match c.map.pop_front with
      | (some e, m) => .ok (some e, { c with map := m })
      | (none, _) => .error "out of capacity"
    else .ok (none, c)
  else .error "assertion failed: out of capacity"

/-- `FIFOCache::put(key, value)`: `check_size` then `push_back`; returns the
popped element, if any. -/
def FIFOCache.put [DecidableEq K] (c : FIFOCache K V) (k : K) (v : V) :
    Except String (Option (K × V) × FIFOCache K V) :=
  match c.check_size with
  | .error e => .error e
  | .ok (res, c1) => .ok (res, { c1 with map := c1.map.push_back k v })

/-- `FIFOCache::put_and_return(key, value)`: `check_size` (popped element
discarded) then `push_back_and_return`. -/
def FIFOCache.put_and_return [DecidableEq K] (c : FIFOCache K V) (k : K) (v : V) :
    Except String ((K × V) × FIFOCache K V) :=
  match c.check_size with
  | .error e => .error e
  | .ok (_, c1) =>
    .ok ((c1.map.push_back_and_return k v).1,
      { c1 with map := (c1.map.push_back_and_return k v).2 })

/-- `FIFOCache::hits_ratio()`: `hits as f64 / (hits + misses) as f64`.  The
f64 quotient is modelled exactly: `none` stands for the NaN produced by the
zero-over-zero division, and any other value is the exact rational quotient
(both operands are integers, so the quotient is a well-defined rational). -/
def FIFOCache.hits_ratio (c : FIFOCache K V) : Option ℚ :=
  if c.hits + c.misses = 0 then none
  else some (mkRat c.hits (c.hits + c.misses))

/-- Model of the Rust percent output with two fractional digits used by
`hits_ratio_str` (ratio times 100, rounded to the nearest hundredth, then
`whole.fraction%`): for a nonnegative ratio `q`, the rounded integer count
of hundredths of a percent is `floor(q * 100 * 100 + 1/2)`, computed here on
the numerator and denominator directly. -/
def format_percent (q : ℚ) : String :=
  let n : Nat := ((q.num * 20000 + (q.den : Int)).fdiv ((q.den : Int) * 2)).toNat
  toString (n / 100) ++ "." ++
    (if n % 100 < 10 then "0" ++ toString (n % 100) else toString (n % 100)) ++ "%"

/-- `FIFOCache::hits_ratio_str()`: the ratio times 100, formatted with two
fractional digits, followed by a percent sign; a NaN ratio prints as
`NaN%`. -/
def FIFOCache.hits_ratio_str (c : FIFOCache K V) : String :=
  match c.hits_ratio with
  | none => "NaN%"
  | some q => format_percent q

/-- `FIFOCache::contains(key)`. -/
def FIFOCache.contains [DecidableEq K] (c : FIFOCache K V) (k : K) : Bool :=
  c.map.contains k

/-- `FIFOCache::is_empty()`. -/
def FIFOCache.is_empty (c : FIFOCache K V) : Bool := c.map.len = 0

/-- `FIFOCache::clear()`: clears the map; counters and capacity are kept. -/
def FIFOCache.clear (c : FIFOCache K V) : FIFOCache K V := { c with map := [] }

/-- `FIFOCache::front()`. -/
def FIFOCache.front (c : FIFOCache K V) : Option V := (c.map.front).map (fun e => e.2)

/-- `FIFOCache::back()`. -/
def FIFOCache.back (c : FIFOCache K V) : Option V := (c.map.back).map (fun e => e.2)

/-! ## LruCache (src/lru_1.rs) -/

/-- `PutStrategy` from src/lru_1.rs. -/
inductive PutStrategy where
  | Replace : PutStrategy
  | Add : PutStrategy
  | Move : PutStrategy
deriving DecidableEq

/-- `LruCache` from src/lru_1.rs (usize `popped_count` modelled as `Nat`). -/
structure LruCache (K V : Type) where
  capacity : Nat
  map : LinkedHashMap K V
  put_strategy : PutStrategy
  popped_count : Nat
deriving DecidableEq

/-- `LruCache::new(capacity)`: default strategy is `Add`, counters zero. -/
def LruCache.new (capacity : Nat) : LruCache K V :=
  { capacity := capacity, map := [], put_strategy := .Add, popped_count := 0 }

/-- `LruCache::with_put_strategy(capacity, strategy)`. -/
def LruCache.with_put_strategy (capacity : Nat) (strategy : PutStrategy) : LruCache K V :=
  { capacity := capacity, map := [], put_strategy := strategy, popped_count := 0 }

/-- `LruCache::len()`. -/
def LruCache.len (c : LruCache K V) : Nat := c.map.len

/-- `LruCache::contains` via the `Deref` impl to the backing map. -/
def LruCache.contains [DecidableEq K] (c : LruCache K V) (k : K) : Bool :=
  c.map.contains k

/-- `LruCache::get(key)`: `move_to_back` and return the value. -/
def LruCache.get [DecidableEq K] (c : LruCache K V) (k : K) :
    Option V × LruCache K V :=
  (((c.map.move_to_back k).1).map (fun e => e.2), { c with map := (c.map.move_to_back k).2 })

/-- `LruCache::get_mut(key)`: `move_to_back`, then a non-reordering
`get_mut` on a hit; the state effect is the relocation alone. -/
def LruCache.get_mut [DecidableEq K] (c : LruCache K V) (k : K) :
    Option V × LruCache K V :=
  if ((c.map.move_to_back k).1).isSome then
    ((c.map.move_to_back k).2.get_mut k, { c with map := (c.map.move_to_back k).2 })
  else (none, c)

/-- `LruCache::take(key)`. -/
def LruCache.take [DecidableEq K] (c : LruCache K V) (k : K) :
    Option (K × V) × LruCache K V :=
  ((c.map.remove k).1, { c with map := (c.map.remove k).2 })

/-- Body of `LruCache::put(key, value)` before its closing assertion: on a
present key, dispatch on the strategy (`Add`: remove then `push_back`;
`Move`: `move_to_back`; `Replace`: `push_back`); on an absent key at
capacity, `pop_front` (returned) and bump `popped_count`, then
`push_back`. -/
def LruCache.put_step [DecidableEq K] (c : LruCache K V) (k : K) (v : V) :
    Option (K × V) × LruCache K V :=
  if c.map.contains k then
    match c.put_strategy with
    | .Add => (none, { c with map := (c.map.erase k).push_back k v })
    | .Move => (none, { c with map := (c.map.move_to_back k).2 })
    | .Replace => (none, { c with map := c.map.push_back k v })
  else
    if c.capacity ≤ c.len then
      ((c.map.pop_front).1,
        { c with map := ((c.map.pop_front).2).push_back k v,
                 popped_count := c.popped_count + 1 })
    else (none, { c with map := c.map.push_back k v })

/-- `LruCache::put(key, value)`: `put_step` followed by the closing
`debug_assert!(self.len() <= self.capacity())`. -/
def LruCache.put [DecidableEq K] (c : LruCache K V) (k : K) (v : V) :
    Except String (Option (K × V) × LruCache K V) :=
  if (c.put_step k v).2.len ≤ (c.put_step k v).2.capacity then .ok (c.put_step k v)
  else .error "assertion failed: self.len() <= self.capacity()"

/-- `LruCache::put_and_return(key, value)`: begins with
`debug_assert!(self.len() <= self.capacity())` (no closing assertion); same
strategy fork as `put`, but returns the resulting entry on a present key
(`Move` returns the `move_to_back` result) and `None` on an absent key; the
element popped by a capacity eviction is discarded. -/
def LruCache.put_and_return [DecidableEq K] (c : LruCache K V) (k : K) (v : V) :
    Except String (Option (K × V) × LruCache K V) :=
  if c.len ≤ c.capacity then
    .ok (if c.map.contains k then
      match c.put_strategy with
      | .Add =>
        (some ((c.map.erase k).push_back_and_return k v).1,
          { c with map := ((c.map.erase k).push_back_and_return k v).2 })
      | .Move => ((c.map.move_to_back k).1, { c with map := (c.map.move_to_back k).2 })
      | .Replace =>
        (some (c.map.push_back_and_return k v).1,
          { c with map := (c.map.push_back_and_return k v).2 })
    else
      if c.capacity ≤ c.len then
        (none, { c with map := ((c.map.pop_front).2).push_back k v,
                        popped_count := c.popped_count + 1 })
      else (none, { c with map := c.map.push_back k v }))
  else .error "assertion failed: self.len() <= self.capacity()"

/-- `LruCache::popped_count()` accessor (same as the field). -/
def LruCache.popped_count_fn (c : LruCache K V) : Nat := c.popped_count

/-- `LruCache::is_empty()`. -/
def LruCache.is_empty (c : LruCache K V) : Bool := c.map.len = 0

/-- `LruCache::clear()`. -/
def LruCache.clear (c : LruCache K V) : LruCache K V := { c with map := [] }

/-- `LruCache::front()`. -/
def LruCache.front (c : LruCache K V) : Option V := (c.map.front).map (fun e => e.2)

/-- `LruCache::back()`. -/
def LruCache.back (c : LruCache K V) : Option V := (c.map.back).map (fun e => e.2)

/-! ## Lru2qCache (src/lru_2q.rs) -/

/-- `Lru2qCache` from src/lru_2q.rs: an admission `FIFOCache` and a
protected `LruCache`, each constructed with the full nominal capacity. -/
structure Lru2qCache (K V : Type) where
  capacity : Nat
  lru : LruCache K V
  fifo : FIFOCache K V
deriving DecidableEq

/-- `Lru2qCache::new(capacity)`. -/
def Lru2qCache.new (capacity : Nat) : Lru2qCache K V :=
  { capacity := capacity, lru := LruCache.new capacity, fifo := FIFOCache.new capacity }

/-- `Lru2qCache::get(key)`: `fifo.take(key)` and, on a hit, feed the taken
pair to `lru.put_and_return`, returning its mapped value
(`.map(..).flatten()`). -/
def Lru2qCache.get [DecidableEq K] (c : Lru2qCache K V) (k : K) :
    Except String (Option V × Lru2qCache K V) :=
  match c.fifo.take k with
  | (none, fifo2) => .ok (none, { c with fifo := fifo2 })
  | (some e, fifo2) =>
    match c.lru.put_and_return e.1 e.2 with
    | .error msg => .error msg
    | .ok (r, lru2) => .ok (r.map (fun p => p.2), { c with fifo := fifo2, lru := lru2 })

/-- `Lru2qCache::put(key, value)`: delegates to the admission queue's
`fifo.put`. -/
def Lru2qCache.put [DecidableEq K] (c : Lru2qCache K V) (k : K) (v : V) :
    Except String (Option (K × V) × Lru2qCache K V) :=
  match c.fifo.put k v with
  | .error msg => .error msg
  | .ok (r, fifo2) => .ok (r, { c with fifo := fifo2 })

/-- `Lru2qCache::len()`: the sum of both queues' occupancy. -/
def Lru2qCache.len (c : Lru2qCache K V) : Nat := c.fifo.len + c.lru.len

/-- `Lru2qCache::capacity()`: asserts that both queues share the nominal
capacity, then returns it. -/
def Lru2qCache.capacity_fn (c : Lru2qCache K V) : Except String Nat :=
  if c.capacity = c.fifo.capacity ∧ c.capacity = c.lru.capacity then .ok c.capacity
  else .error "assertion failed: capacities differ"

/-- `Lru2qCache::is_empty()`. -/
def Lru2qCache.is_empty (c : Lru2qCache K V) : Bool :=
  c.fifo.is_empty && c.lru.is_empty

/-- `Lru2qCache::clear()`. -/
def Lru2qCache.clear (c : Lru2qCache K V) : Lru2qCache K V :=
  { c with fifo := c.fifo.clear, lru := c.lru.clear }

/-! ## Mutating-operation sequences

One constructor per `&mut self` method of each cache type (return values
are dropped; a panic aborts the run). -/

/-- The mutating operations of `FIFOCache`. -/
inductive FifoOp (K V : Type) where
  | put : K → V → FifoOp K V
  | put_and_return : K → V → FifoOp K V
  | take : K → FifoOp K V
  | renew : K → FifoOp K V
  | get : K → FifoOp K V
  | get_mut : K → FifoOp K V
  | clear : FifoOp K V

/-- State effect of one `FIFOCache` operation. -/
def FIFOCache.apply_op [DecidableEq K] (c : FIFOCache K V) :
    FifoOp K V → Except String (FIFOCache K V)
  | .put k v =>
    match c.put k v with
    | .error e => .error e
    | .ok r => .ok r.2
  | .put_and_return k v =>
    match c.put_and_return k v with
    | .error e => .error e
    | .ok r => .ok r.2
  | .take k => .ok (c.take k).2
  | .renew k => .ok (c.renew k).2
  | .get k => .ok (c.get k).2
  | .get_mut k => .ok (c.get_mut k).2
  | .clear => .ok c.clear

/-- Run a sequence of `FIFOCache` operations. -/
def FIFOCache.run [DecidableEq K] (c : FIFOCache K V) :
    List (FifoOp K V) → Except String (FIFOCache K V)
  | [] => .ok c
  | op :: ops =>
    match c.apply_op op with
    | .error e => .error e
    | .ok c2 => FIFOCache.run c2 ops

/-- The mutating operations of `LruCache`. -/
inductive LruOp (K V : Type) where
  | put : K → V → LruOp K V
  | put_and_return : K → V → LruOp K V
  | take : K → LruOp K V
  | get : K → LruOp K V
  | get_mut : K → LruOp K V
  | put_strategy : PutStrategy → LruOp K V
  | clear : LruOp K V

/-- State effect of one `LruCache` operation. -/
def LruCache.apply_op [DecidableEq K] (c : LruCache K V) :
    LruOp K V → Except String (LruCache K V)
  | .put k v =>
    match c.put k v with
    | .error e => .error e
    | .ok r => .ok r.2
  | .put_and_return k v =>
    match c.put_and_return k v with
    | .error e => .error e
    | .ok r => .ok r.2
  | .take k => .ok (c.take k).2
  | .get k => .ok (c.get k).2
  | .get_mut k => .ok (c.get_mut k).2
  | .put_strategy s => .ok { c with put_strategy := s }
  | .clear => .ok c.clear

/-- Run a sequence of `LruCache` operations. -/
def LruCache.run [DecidableEq K] (c : LruCache K V) :
    List (LruOp K V) → Except String (LruCache K V)
  | [] => .ok c
  | op :: ops =>
    match c.apply_op op with
    | .error e => .error e
    | .ok c2 => LruCache.run c2 ops

/-- Mutating operations of `Lru2qCache` with a usable implementation in
src/lru_2q.rs: `take`, `get_mut` and `pos` are `todo!()`, and the body of
`put_and_return` does not type-check (it returns `FIFOCache`'s non-optional
entry where its own `Option` return type is declared; `get_or_init` depends
on it), which is also why lib.rs keeps the whole module commented out. -/
inductive Lru2qOp (K V : Type) where
  | put : K → V → Lru2qOp K V
  | get : K → Lru2qOp K V
  | clear : Lru2qOp K V

/-- State effect of one `Lru2qCache` operation. -/
def Lru2qCache.apply_op [DecidableEq K] (c : Lru2qCache K V) :
    Lru2qOp K V → Except String (Lru2qCache K V)
  | .put k v =>
    match c.put k v with
    | .error e => .error e
    | .ok r => .ok r.2
  | .get k =>
    match c.get k with
    | .error e => .error e
    | .ok r => .ok r.2
  | .clear => .ok c.clear

/-- Run a sequence of `Lru2qCache` operations. -/
def Lru2qCache.run [DecidableEq K] (c : Lru2qCache K V) :
    List (Lru2qOp K V) → Except String (Lru2qCache K V)
  | [] => .ok c
  | op :: ops =>
    match c.apply_op op with
    | .error e => .error e
    | .ok c2 => Lru2qCache.run c2 ops

deriving instance DecidableEq for Except

/-! ### Sanity checks: the embedding reproduces the crate's own tests -/

example :
    (FIFOCache.run (FIFOCache.new 3 : FIFOCache ℕ String)
        [.put 1 "a", .put 2 "b", .put 3 "c", .get 1, .put 4 "d"]).map
      (fun c => (c.map, c.hits, c.misses)) =
    .ok ([(2, "b"), (3, "c"), (4, "d")], 1, 0) := by decide

example :
    (LruCache.run (LruCache.new 2 : LruCache String String)
        [.put "1" "a", .get "1", .put "2" "b", .get "2", .get "1", .put "3" "c"]).map
      (fun c => (c.map, (c.get "2").1, (c.get "3").1)) =
    .ok ([("1", "a"), ("3", "c")], none, some "c") := by decide

example :
    (FIFOCache.run (FIFOCache.new 2 : FIFOCache ℕ String) [.put 1 "a", .put 2 "b", .renew 1]).map
      (fun c => (c.front, c.back)) = .ok (some "b", some "a") := by decide

/-! ## Helper lemmas about the cache operations -/

theorem FIFOCache.check_size_ok [DecidableEq K] (c : FIFOCache K V)
    (r : Option (K × V)) (c1 : FIFOCache K V) (h : c.check_size = .ok (r, c1)) :
    c1.capacity = c.capacity ∧ c1.len < c.capacity ∧
    r = (if c.capacity ≤ c.len then c.map.front else none) := by
  unfold FIFOCache.check_size at h
  by_cases h1 : c.len ≤ c.capacity
  · rw [if_pos h1] at h
    by_cases h2 : c.capacity ≤ c.len
    · rw [if_pos h2] at h
      cases hm : c.map with
      | nil =>
        rw [hm] at h
        simp [LinkedHashMap.pop_front] at h
      | cons e rest =>
        rw [hm] at h
        simp only [LinkedHashMap.pop_front, Except.ok.injEq, Prod.mk.injEq] at h
        obtain ⟨hr, hc1⟩ := h
        subst hc1
        have hlen : c.len = List.length rest + 1 := by
          simp [FIFOCache.len, hm, LinkedHashMap.len]
        refine ⟨rfl, ?_, ?_⟩
        · simp only [FIFOCache.len, LinkedHashMap.len]
          omega
        · rw [if_pos h2, ← hr]
          rfl
    · rw [if_neg h2] at h
      simp only [Except.ok.injEq, Prod.mk.injEq] at h
      obtain ⟨hr, hc1⟩ := h
      subst hc1
      exact ⟨rfl, by omega, by rw [if_neg h2, hr]⟩
  · rw [if_neg h1] at h
    exact absurd h (by simp)

theorem FIFOCache.put_ok_spec [DecidableEq K] (c : FIFOCache K V) (k : K) (v : V)
    (r : Option (K × V)) (c' : FIFOCache K V) (h : c.put k v = .ok (r, c')) :
    c'.capacity = c.capacity ∧ c'.len ≤ c.capacity ∧
    r = (if c.capacity ≤ c.len then c.map.front else none) := by
  unfold FIFOCache.put at h
  cases hcs : c.check_size with
  | error e => rw [hcs] at h; exact absurd h (by simp)
  | ok p =>
    obtain ⟨r1, c1⟩ := p
    rw [hcs] at h
    simp only [Except.ok.injEq, Prod.mk.injEq] at h
    obtain ⟨hr, hc'⟩ := h
    subst hc'
    obtain ⟨hcap, hlen, hrr⟩ := c.check_size_ok r1 c1 hcs
    refine ⟨hcap, ?_, by rw [← hr, hrr]⟩
    have := c1.map.len_push_back_le k v
    simp only [FIFOCache.len] at *
    omega

theorem LruCache.put_ok_props [DecidableEq K] (c : LruCache K V) (k : K) (v : V)
    (r : Option (K × V)) (c' : LruCache K V) (h : c.put k v = .ok (r, c')) :
    c'.capacity = c.capacity ∧ c'.len ≤ c'.capacity ∧
    c'.popped_count = c.popped_count + (if r.isSome then 1 else 0) ∧
    (r.isSome = true ↔ (c.map.contains k = false ∧ c.capacity ≤ c.len)) := by
  unfold LruCache.put at h
  by_cases hif : (c.put_step k v).2.len ≤ (c.put_step k v).2.capacity
  · rw [if_pos hif] at h
    injection h with h2
    have hlen : c'.len ≤ c'.capacity := by rw [h2] at hif; exact hif
    have key : c'.capacity = c.capacity ∧
        c'.popped_count = c.popped_count + (if r.isSome then 1 else 0) ∧
        (r.isSome = true ↔ (c.map.contains k = false ∧ c.capacity ≤ c.len)) := by
      unfold LruCache.put_step at h2
      by_cases hc : c.map.contains k = true
      · rw [if_pos hc] at h2
        cases hs : c.put_strategy <;>
        · rw [hs] at h2
          simp only [Prod.mk.injEq] at h2
          obtain ⟨hr, hc'⟩ := h2
          subst hr
          subst hc'
          exact ⟨rfl, by simp, by simp [hc]⟩
      · rw [if_neg hc] at h2
        have hcf : c.map.contains k = false := by simpa using hc
        by_cases hl : c.capacity ≤ c.len
        · rw [if_pos hl] at h2
          simp only [Prod.mk.injEq] at h2
          obtain ⟨hr, hc'⟩ := h2
          subst hc'
          cases hm : c.map with
          | nil =>
            exfalso
            have h0 : c.len = 0 := by simp [LruCache.len, hm, LinkedHashMap.len]
            rw [hm] at hlen
            simp only [LruCache.len, LinkedHashMap.pop_front, LinkedHashMap.push_back,
              LinkedHashMap.erase, LinkedHashMap.len, List.nil_append,
              List.length_cons, List.length_nil] at hlen
            omega
          | cons e rest =>
            rw [hm] at hr hcf
            simp only [LinkedHashMap.pop_front] at hr
            subst hr
            exact ⟨rfl, by simp, by simp [hcf, hl]⟩
        · rw [if_neg hl] at h2
          simp only [Prod.mk.injEq] at h2
          obtain ⟨hr, hc'⟩ := h2
          subst hr
          subst hc'
          exact ⟨rfl, by simp, by simp [hcf, hl]⟩
    exact ⟨key.1, hlen, key.2.1, key.2.2⟩
  · rw [if_neg hif] at h
    exact Except.noConfusion h

theorem LruCache.put_and_return_ok_props [DecidableEq K] (c : LruCache K V) (k : K) (v : V)
    (r : Option (K × V)) (c' : LruCache K V) (hcap : 1 ≤ c.capacity)
    (h : c.put_and_return k v = .ok (r, c')) :
    c'.capacity = c.capacity ∧ c'.len ≤ c'.capacity := by
  unfold LruCache.put_and_return at h
  by_cases hif : c.len ≤ c.capacity
  · rw [if_pos hif] at h
    injection h with h2
    by_cases hc : c.map.contains k = true
    · rw [if_pos hc] at h2
      cases hs : c.put_strategy with
      | Add =>
        rw [hs] at h2
        simp only [Prod.mk.injEq] at h2
        obtain ⟨hr, hc'⟩ := h2
        subst hc'
        refine ⟨rfl, ?_⟩
        have h1 := (c.map.erase k).len_push_back_le k v
        have h2b := c.map.len_erase_of_contains k hc
        simp only [LruCache.len, LinkedHashMap.push_back_and_return, LinkedHashMap.len] at *
        omega
      | Move =>
        rw [hs] at h2
        simp only [Prod.mk.injEq] at h2
        obtain ⟨hr, hc'⟩ := h2
        subst hc'
        refine ⟨rfl, ?_⟩
        have h1 := c.map.len_move_to_back k
        simp only [LruCache.len, LinkedHashMap.len] at *
        omega
      | Replace =>
        rw [hs] at h2
        simp only [Prod.mk.injEq] at h2
        obtain ⟨hr, hc'⟩ := h2
        subst hc'
        refine ⟨rfl, ?_⟩
        have h1 := c.map.len_push_back_of_contains k v hc
        simp only [LruCache.len, LinkedHashMap.push_back_and_return, LinkedHashMap.len] at *
        omega
    · rw [if_neg hc] at h2
      by_cases hl : c.capacity ≤ c.len
      · rw [if_pos hl] at h2
        simp only [Prod.mk.injEq] at h2
        obtain ⟨hr, hc'⟩ := h2
        subst hc'
        refine ⟨rfl, ?_⟩
        cases hm : c.map with
        | nil =>
          exfalso
          have h0 : c.len = 0 := by simp [LruCache.len, hm, LinkedHashMap.len]
          omega
        | cons e rest =>
          have h1 := ((LinkedHashMap.pop_front (e :: rest)).2).len_push_back_le k v
          simp only [LruCache.len, LinkedHashMap.len] at hif hl
          rw [hm] at hif hl
          simp only [List.length_cons] at hif hl
          simp only [LruCache.len, LinkedHashMap.pop_front, LinkedHashMap.len] at *
          omega
      · rw [if_neg hl] at h2
        simp only [Prod.mk.injEq] at h2
        obtain ⟨hr, hc'⟩ := h2
        subst hc'
        refine ⟨rfl, ?_⟩
        have h1 := c.map.len_push_back_le k v
        simp only [LruCache.len, LinkedHashMap.len] at *
        omega
  · rw [if_neg hif] at h
    exact Except.noConfusion h

theorem FIFOCache.put_and_return_ok_spec [DecidableEq K] (c : FIFOCache K V) (k : K) (v : V)
    (e : K × V) (c' : FIFOCache K V) (h : c.put_and_return k v = .ok (e, c')) :
    c'.capacity = c.capacity ∧ c'.len ≤ c'.capacity := by
  unfold FIFOCache.put_and_return at h
  cases hcs : c.check_size with
  | error msg => rw [hcs] at h; exact Except.noConfusion h
  | ok p =>
    rw [hcs] at h
    simp only [Except.ok.injEq, Prod.mk.injEq] at h
    obtain ⟨he, hc'⟩ := h
    subst hc'
    obtain ⟨hcap, hlen, _⟩ := c.check_size_ok p.1 p.2 (by rw [hcs])
    refine ⟨hcap, ?_⟩
    have h1 := p.2.map.len_push_back_le k v
    simp only [FIFOCache.len, LinkedHashMap.push_back_and_return, LinkedHashMap.len] at *
    omega

theorem FIFOCache.apply_op_ok_spec [DecidableEq K] (c : FIFOCache K V) (op : FifoOp K V)
    (c' : FIFOCache K V) (hinv : c.len ≤ c.capacity) (h : c.apply_op op = .ok c') :
    c'.capacity = c.capacity ∧ c'.len ≤ c'.capacity := by
  cases op with
  | put k v =>
    simp only [FIFOCache.apply_op] at h
    cases hp : c.put k v with
    | error msg => rw [hp] at h; exact Except.noConfusion h
    | ok p =>
      rw [hp] at h
      injection h with h2
      subst h2
      obtain ⟨hcap, hlen, _⟩ := c.put_ok_spec k v p.1 p.2 (by rw [hp])
      exact ⟨hcap, by rw [hcap]; exact hlen⟩
  | put_and_return k v =>
    simp only [FIFOCache.apply_op] at h
    cases hp : c.put_and_return k v with
    | error msg => rw [hp] at h; exact Except.noConfusion h
    | ok p =>
      rw [hp] at h
      injection h with h2
      subst h2
      exact c.put_and_return_ok_spec k v p.1 p.2 (by rw [hp])
  | take k =>
    simp only [FIFOCache.apply_op, FIFOCache.take] at h
    injection h with h2
    subst h2
    refine ⟨rfl, ?_⟩
    have h1 := c.map.len_erase_le k
    simp only [FIFOCache.len, LinkedHashMap.remove, LinkedHashMap.len] at *
    omega
  | renew k =>
    simp only [FIFOCache.apply_op, FIFOCache.renew] at h
    injection h with h2
    subst h2
    refine ⟨rfl, ?_⟩
    have h1 := c.map.len_move_to_back k
    simp only [FIFOCache.len, LinkedHashMap.len] at *
    omega
  | get k =>
    simp only [FIFOCache.apply_op, FIFOCache.get] at h
    cases hg : c.map.get k with
    | none => rw [hg] at h; injection h with h2; subst h2; exact ⟨rfl, hinv⟩
    | some v => rw [hg] at h; injection h with h2; subst h2; exact ⟨rfl, hinv⟩
  | get_mut k =>
    simp only [FIFOCache.apply_op, FIFOCache.get_mut, LinkedHashMap.get_mut] at h
    cases hg : c.map.get k with
    | none => rw [hg] at h; injection h with h2; subst h2; exact ⟨rfl, hinv⟩
    | some v => rw [hg] at h; injection h with h2; subst h2; exact ⟨rfl, hinv⟩
  | clear =>
    simp only [FIFOCache.apply_op, FIFOCache.clear] at h
    injection h with h2
    subst h2
    exact ⟨rfl, by simp [FIFOCache.len, LinkedHashMap.len]⟩

theorem FIFOCache.run_inv [DecidableEq K] (ops : List (FifoOp K V)) (c : FIFOCache K V)
    (c' : FIFOCache K V) (hinv : c.len ≤ c.capacity) (h : c.run ops = .ok c') :
    c'.len ≤ c'.capacity := by
  induction ops generalizing c with
  | nil =>
    simp only [FIFOCache.run] at h
    injection h with h2
    subst h2
    exact hinv
  | cons op ops ih =>
    simp only [FIFOCache.run] at h
    cases ha : c.apply_op op with
    | error msg => rw [ha] at h; exact Except.noConfusion h
    | ok c2 =>
      rw [ha] at h
      obtain ⟨_, h1⟩ := c.apply_op_ok_spec op c2 hinv ha
      exact ih c2 h1 h

theorem LruCache.apply_op_ok_props [DecidableEq K] (c : LruCache K V) (op : LruOp K V)
    (c' : LruCache K V) (hinv : c.len ≤ c.capacity) (hcap : 1 ≤ c.capacity)
    (h : c.apply_op op = .ok c') :
    c'.capacity = c.capacity ∧ c'.len ≤ c'.capacity := by
  cases op with
  | put k v =>
    simp only [LruCache.apply_op] at h
    cases hp : c.put k v with
    | error msg => rw [hp] at h; exact Except.noConfusion h
    | ok p =>
      rw [hp] at h
      injection h with h2
      subst h2
      obtain ⟨hcap2, hlen, _⟩ := c.put_ok_props k v p.1 p.2 (by rw [hp])
      exact ⟨hcap2, hlen⟩
  | put_and_return k v =>
    simp only [LruCache.apply_op] at h
    cases hp : c.put_and_return k v with
    | error msg => rw [hp] at h; exact Except.noConfusion h
    | ok p =>
      rw [hp] at h
      injection h with h2
      subst h2
      exact c.put_and_return_ok_props k v p.1 p.2 hcap (by rw [hp])
  | take k =>
    simp only [LruCache.apply_op, LruCache.take] at h
    injection h with h2
    subst h2
    refine ⟨rfl, ?_⟩
    have h1 := c.map.len_erase_le k
    simp only [LruCache.len, LinkedHashMap.remove, LinkedHashMap.len] at *
    omega
  | get k =>
    simp only [LruCache.apply_op, LruCache.get] at h
    injection h with h2
    subst h2
    refine ⟨rfl, ?_⟩
    have h1 := c.map.len_move_to_back k
    simp only [LruCache.len, LinkedHashMap.len] at *
    omega
  | get_mut k =>
    simp only [LruCache.apply_op, LruCache.get_mut] at h
    by_cases hg : ((c.map.move_to_back k).1).isSome
    · rw [if_pos hg] at h
      injection h with h2
      subst h2
      refine ⟨rfl, ?_⟩
      have h1 := c.map.len_move_to_back k
      simp only [LruCache.len, LinkedHashMap.len] at *
      omega
    · rw [if_neg hg] at h
      injection h with h2
      subst h2
      exact ⟨rfl, hinv⟩
  | put_strategy s =>
    simp only [LruCache.apply_op] at h
    injection h with h2
    subst h2
    exact ⟨rfl, hinv⟩
  | clear =>
    simp only [LruCache.apply_op, LruCache.clear] at h
    injection h with h2
    subst h2
    exact ⟨rfl, by simp [LruCache.len, LinkedHashMap.len]⟩

theorem LruCache.run_inv_from_new [DecidableEq K] (ops : List (LruOp K V)) (c : LruCache K V)
    (c' : LruCache K V) (hinv : c.len ≤ c.capacity) (hcap : 1 ≤ c.capacity)
    (h : c.run ops = .ok c') :
    c'.len ≤ c'.capacity := by
  induction ops generalizing c with
  | nil =>
    simp only [LruCache.run] at h
    injection h with h2
    subst h2
    exact hinv
  | cons op ops ih =>
    simp only [LruCache.run] at h
    cases ha : c.apply_op op with
    | error msg => rw [ha] at h; exact Except.noConfusion h
    | ok c2 =>
      rw [ha] at h
      obtain ⟨h0, h1⟩ := c.apply_op_ok_props op c2 hinv hcap ha
      exact ih c2 h1 (by rw [h0]; exact hcap) h

/-! ## Claims -/

/-- C1: the spec states that `Lru2qCache::get` on a key present in the
admission queue migrates the entry (moved, not duplicated) into the
protected queue and returns the migrated value.  The code does migrate the
entry, but returns no value whenever the key was not already in the
protected queue, because `LruCache::put_and_return` yields `None` on its
fresh-insert path: after `put(1, "a")` on a fresh two-queue cache of
capacity 2, `get(1)` moves `(1, "a")` out of the admission queue into the
protected queue yet evaluates to `None`. -/
theorem c1_two_queue_get_migrates_but_returns_none :
    ((Lru2qCache.new 2 : Lru2qCache ℕ String).put 1 "a").bind
      (fun p => (p.2.get 1).map (fun q => (q.1, q.2.fifo.map, q.2.lru.map))) =
    .ok (none, [], [(1, "a")]) := by decide

/-- C3: for every cache type constructed with capacity 0, the first `put`
fails fatally and deterministically: `FIFOCache` hits the explicit
`panic!("out of capacity")`, `LruCache` trips the closing
`debug_assert!(self.len() <= self.capacity())`, and `Lru2qCache` delegates
to the admission queue's `FIFOCache::put` and panics there. -/
theorem c3_capacity_zero_first_put_panics (K V : Type) [DecidableEq K] (k : K) (v : V) :
    (FIFOCache.new 0 : FIFOCache K V).put k v = .error "out of capacity" ∧
    (LruCache.new 0 : LruCache K V).put k v =
      .error "assertion failed: self.len() <= self.capacity()" ∧
    (Lru2qCache.new 0 : Lru2qCache K V).put k v = .error "out of capacity" :=
  ⟨rfl, rfl, rfl⟩

/-- Witness for C3 at concrete inputs. -/
theorem c3_capacity_zero_first_put_panics_witness :
    (FIFOCache.new 0 : FIFOCache ℕ String).put 1 "a" = .error "out of capacity" ∧
    (LruCache.new 0 : LruCache ℕ String).put 1 "a" =
      .error "assertion failed: self.len() <= self.capacity()" ∧
    (Lru2qCache.new 0 : Lru2qCache ℕ String).put 1 "a" = .error "out of capacity" :=
  c3_capacity_zero_first_put_panics ℕ String 1 "a"

/-- C4: the spec states that under the `Replace` strategy a `put` on a
present key overwrites the value in place and leaves the entry's position
unchanged, and the strategy's own doc comment in src/lru_1.rs says the same;
but the `Replace` arm calls `push_back`, which detaches the entry and
re-appends it at the back: with capacity 2 and strategy `Replace`, after
`put(1,"a")`, `put(2,"b")`, the call `put(1,"c")` leaves the order
`[(2,"b"), (1,"c")]` — the front is now key 2 and key 1 has moved to the
back. -/
theorem c4_replace_strategy_relocates_to_back :
    (LruCache.run (LruCache.with_put_strategy 2 .Replace : LruCache ℕ String)
        [.put 1 "a", .put 2 "b", .put 1 "c"]).map (fun c => (c.map, c.front)) =
    .ok ([(2, "b"), (1, "c")], some "b") := by decide

/-- C6: the spec states that `LruCache::put_and_return` returns a reference
to the entry that results from the call, in particular the newly inserted
entry for an absent key; the code's fresh-insert branch instead returns
`None` (its own doc comment promises to "return the put element"): on a
fresh cache of capacity 1, `put_and_return(1, "a")` inserts `(1, "a")` but
evaluates to `None`. -/
theorem c6_put_and_return_absent_key_returns_none :
    ((LruCache.new 1 : LruCache ℕ String).put_and_return 1 "a").map
      (fun p => (p.1, p.2.map)) = .ok (none, [(1, "a")]) := by decide

/-- C9: `hits_ratio` is `hits / (hits + misses)` (the exact rational value
whenever at least one access happened), the no-accesses case yields the NaN
marker, and after exactly two hits and one miss the ratio is `2/3` with
formatted form `"66.67%"`. -/
theorem c9_hits_ratio_exactness :
    (FIFOCache.new 2 : FIFOCache ℕ String).hits_ratio = none ∧
    ((FIFOCache.run (FIFOCache.new 2 : FIFOCache ℕ String)
        [.put 1 "a", .put 2 "b", .get 1, .get 1, .get 3]).map
      (fun c => (c.hits, c.misses, c.hits_ratio, c.hits_ratio_str)) =
    .ok (2, 1, some (mkRat 2 3), "66.67%")) ∧
    (∀ (c : FIFOCache ℕ String), ¬(c.hits + c.misses = 0) →
      c.hits_ratio = some (mkRat c.hits (c.hits + c.misses))) := by
  refine ⟨by decide, by decide, ?_⟩
  intro c hc
  unfold FIFOCache.hits_ratio
  rw [if_neg hc]

/-- Witness for C9's general-formula conjunct at a concrete counter state. -/
theorem c9_hits_ratio_exactness_witness :
    (⟨2, [], 2, 1⟩ : FIFOCache ℕ String).hits_ratio =
      some (mkRat (⟨2, [], 2, 1⟩ : FIFOCache ℕ String).hits
        ((⟨2, [], 2, 1⟩ : FIFOCache ℕ String).hits +
          (⟨2, [], 2, 1⟩ : FIFOCache ℕ String).misses)) :=
  c9_hits_ratio_exactness.2.2 ⟨2, [], 2, 1⟩ (by decide)

/-- C7: `Lru2qCache::get` on a key absent from the admission queue returns
no value and leaves the entire cache state — in particular the protected
queue — untouched, even when the key is present in the protected queue: a
previously promoted key is unreachable through plain `get`. -/
theorem c7_two_queue_get_miss_skips_protected_queue {K V : Type} [DecidableEq K]
    (c : Lru2qCache K V) (k : K) (h : c.fifo.contains k = false) :
    c.get k = .ok (none, c) := by
  have hc : c.fifo.map.contains k = false := h
  unfold Lru2qCache.get FIFOCache.take
  rw [c.fifo.map.remove_of_not_contains k hc]

/-- Witness for C7: key 1 sits in the protected queue but not in the
admission queue, and `get 1` returns nothing and changes nothing. -/
theorem c7_two_queue_get_miss_skips_protected_queue_witness :
    (⟨1, ⟨1, [(1, "a")], .Add, 0⟩, ⟨1, [], 0, 0⟩⟩ : Lru2qCache ℕ String).get 1 =
      .ok (none, ⟨1, ⟨1, [(1, "a")], .Add, 0⟩, ⟨1, [], 0, 0⟩⟩) :=
  c7_two_queue_get_miss_skips_protected_queue _ 1 (by decide)

/-- C5 counterexample: the claim says a `put` on an already-present key
never evicts another entry, but `check_size` never consults the key: with
capacity 2 and entries `[(1,"a"), (2,"b")]`, the call `put(2, "c")` — key 2
is present — still pops and returns the front entry `(1, "a")`. -/
theorem c5_counterexample_present_key_still_evicts :
    ((FIFOCache.run (FIFOCache.new 2 : FIFOCache ℕ String) [.put 1 "a", .put 2 "b"]).bind
      (fun c => (c.put 2 "c").map (fun p => (c.contains 2, p.1, p.2.map)))) =
    .ok (true, some (1, "a"), [(2, "c")]) := by decide

/-- C5 (amended): `FIFOCache::put` evicts and returns the front entry
exactly when `len >= capacity` at call time, regardless of whether the key
is already present; below capacity nothing is evicted. -/
theorem c5_put_evicts_front_iff_at_capacity {K V : Type} [DecidableEq K]
    (c : FIFOCache K V) (k : K) (v : V) (r : Option (K × V)) (c' : FIFOCache K V)
    (h : c.put k v = .ok (r, c')) :
    r = (if c.capacity ≤ c.len then c.map.front else none) :=
  (c.put_ok_spec k v r c' h).2.2

/-- Witness for C5's amended statement: a below-capacity `put` evicts
nothing. -/
theorem c5_put_evicts_front_iff_at_capacity_witness :
    (none : Option (ℕ × String)) =
      (if (FIFOCache.new 2 : FIFOCache ℕ String).capacity ≤
          (FIFOCache.new 2 : FIFOCache ℕ String).len
       then (FIFOCache.new 2 : FIFOCache ℕ String).map.front else none) :=
  c5_put_evicts_front_iff_at_capacity (FIFOCache.new 2) 1 "a" none ⟨2, [(1, "a")], 0, 0⟩
    (by decide)

/-- C8: a successful `LruCache::put` bumps `popped_count` by one exactly
when it returns an evicted pair, and it returns an evicted pair exactly when
the key was absent and the cache was at capacity; present-key puts (all
three strategies) leave the counter unchanged. -/
theorem c8_popped_count_tracks_capacity_evictions {K V : Type} [DecidableEq K]
    (c : LruCache K V) (k : K) (v : V) (r : Option (K × V)) (c' : LruCache K V)
    (h : c.put k v = .ok (r, c')) :
    c'.popped_count = c.popped_count + (if r.isSome then 1 else 0) ∧
    (r.isSome = true ↔ (c.map.contains k = false ∧ c.capacity ≤ c.len)) :=
  ⟨(c.put_ok_props k v r c' h).2.2.1, (c.put_ok_props k v r c' h).2.2.2⟩

/-- Witness for C8: an at-capacity insert of an absent key evicts the LRU
entry and bumps the counter from 4 to 5. -/
theorem c8_popped_count_tracks_capacity_evictions_witness :
    (⟨1, [(7, 8)], PutStrategy.Add, 5⟩ : LruCache ℕ ℕ).popped_count =
      (⟨1, [(5, 6)], PutStrategy.Add, 4⟩ : LruCache ℕ ℕ).popped_count +
        (if (some (5, 6) : Option (ℕ × ℕ)).isSome then 1 else 0) ∧
    ((some (5, 6) : Option (ℕ × ℕ)).isSome = true ↔
      ((⟨1, [(5, 6)], PutStrategy.Add, 4⟩ : LruCache ℕ ℕ).map.contains 7 = false ∧
        (⟨1, [(5, 6)], PutStrategy.Add, 4⟩ : LruCache ℕ ℕ).capacity ≤
          (⟨1, [(5, 6)], PutStrategy.Add, 4⟩ : LruCache ℕ ℕ).len)) :=
  c8_popped_count_tracks_capacity_evictions ⟨1, [(5, 6)], .Add, 4⟩ 7 8 (some (5, 6))
    ⟨1, [(7, 8)], .Add, 5⟩ (by decide)

/-- C10: a successful `LruCache::put` on a present key returns `None` under
every strategy — the displaced value is dropped, never handed back — and a
`Some` result occurs only for a capacity-triggered eviction on an absent
key. -/
theorem c10_put_present_key_returns_none {K V : Type} [DecidableEq K]
    (c : LruCache K V) (k : K) (v : V) (r : Option (K × V)) (c' : LruCache K V)
    (h : c.put k v = .ok (r, c')) :
    (c.map.contains k = true → r = none) ∧
    (∀ p : K × V, r = some p → c.map.contains k = false ∧ c.capacity ≤ c.len) := by
  have hs := (c.put_ok_props k v r c' h).2.2.2
  constructor
  · intro hc
    cases hr : r with
    | none => rfl
    | some p => exact absurd (hs.mp (by rw [hr]; rfl)) (by simp [hc])
  · intro p hp
    exact hs.mp (by rw [hp]; rfl)

/-- Witness for C10: a present-key `put` (default `Add` strategy) returns
`None`. -/
theorem c10_put_present_key_returns_none_witness :
    (⟨2, [(1, 5)], PutStrategy.Add, 0⟩ : LruCache ℕ ℕ).map.contains 1 = true ∧
    (none : Option (ℕ × ℕ)) = none :=
  ⟨by decide,
    (c10_put_present_key_returns_none ⟨2, [(1, 5)], .Add, 0⟩ 1 7 none
      ⟨2, [(1, 7)], .Add, 0⟩ (by decide)).1 (by decide)⟩

/-- C2 counterexample: the claim fails for two of the three cache types.
`Lru2qCache` gives each queue the full nominal capacity, so with capacity 1
the sequence `put(1,10); get(1); put(2,20)` leaves one entry in each queue:
`len() = 2 > capacity() = 1`.  `LruCache` with capacity 0 silently inserts
through `put_and_return` (its assertion runs only on entry), reaching
`len() = 1 > capacity() = 0`. -/
theorem c2_counterexample_len_exceeds_capacity :
    (Lru2qCache.run (Lru2qCache.new 1 : Lru2qCache ℕ ℕ) [.put 1 10, .get 1, .put 2 20] =
      .ok ⟨1, ⟨1, [(1, 10)], PutStrategy.Add, 0⟩, ⟨1, [(2, 20)], 0, 0⟩⟩) ∧
    (⟨1, ⟨1, [(1, 10)], PutStrategy.Add, 0⟩, ⟨1, [(2, 20)], 0, 0⟩⟩ :
      Lru2qCache ℕ ℕ).capacity_fn = .ok 1 ∧
    ¬ ((⟨1, ⟨1, [(1, 10)], PutStrategy.Add, 0⟩, ⟨1, [(2, 20)], 0, 0⟩⟩ :
      Lru2qCache ℕ ℕ).len ≤ 1) ∧
    ((LruCache.new 0 : LruCache ℕ ℕ).put_and_return 1 10 =
      .ok (none, ⟨0, [(1, 10)], PutStrategy.Add, 1⟩)) ∧
    ¬ ((⟨0, [(1, 10)], PutStrategy.Add, 1⟩ : LruCache ℕ ℕ).len ≤
        (⟨0, [(1, 10)], PutStrategy.Add, 1⟩ : LruCache ℕ ℕ).capacity) := by
  decide

/-- C2 (amended): after every sequence of mutating operations starting from
a freshly constructed cache, `len() <= capacity()` holds for `FIFOCache` at
every capacity and for `LruCache` at every capacity of at least 1.  (It
fails for `LruCache` at capacity 0 and for `Lru2qCache`.) -/
theorem c2_len_le_capacity_fifo_and_lru :
    (∀ (K V : Type) [DecidableEq K] (cap : Nat) (ops : List (FifoOp K V))
        (c' : FIFOCache K V), FIFOCache.run (FIFOCache.new cap) ops = .ok c' →
        c'.len ≤ c'.capacity) ∧
    (∀ (K V : Type) [DecidableEq K] (cap : Nat) (ops : List (LruOp K V))
        (c' : LruCache K V), 1 ≤ cap → LruCache.run (LruCache.new cap) ops = .ok c' →
        c'.len ≤ c'.capacity) := by
  constructor
  · intro K V _ cap ops c' h
    exact FIFOCache.run_inv ops (FIFOCache.new cap) c'
      (by simp [FIFOCache.new, FIFOCache.len, LinkedHashMap.len]) h
  · intro K V _ cap ops c' hcap h
    exact LruCache.run_inv_from_new ops (LruCache.new cap) c'
      (by simp [LruCache.new, LruCache.len, LinkedHashMap.len]) hcap h

/-- Witness for C2's amended statement on concrete one-`put` runs. -/
theorem c2_len_le_capacity_fifo_and_lru_witness :
    ((⟨2, [(1, 10)], 0, 0⟩ : FIFOCache ℕ ℕ).len ≤
      (⟨2, [(1, 10)], 0, 0⟩ : FIFOCache ℕ ℕ).capacity) ∧
    ((⟨1, [(1, 10)], PutStrategy.Add, 0⟩ : LruCache ℕ ℕ).len ≤
      (⟨1, [(1, 10)], PutStrategy.Add, 0⟩ : LruCache ℕ ℕ).capacity) :=
  ⟨c2_len_le_capacity_fifo_and_lru.1 ℕ ℕ 2 [.put 1 10] ⟨2, [(1, 10)], 0, 0⟩ (by decide),
    c2_len_le_capacity_fifo_and_lru.2 ℕ ℕ 1 [.put 1 10] ⟨1, [(1, 10)], .Add, 0⟩
      (by decide) (by decide)⟩
